import Mathlib

/-!
Verification of `da2inee/data-project`.

The repository source contains a single JavaScript function
(`src/test3.js`): `filterEvenNumbers`, which returns
`arr.filter(num => num % 2 === 0)`.  The specification additionally
describes an RSS-to-database ETL pipeline (FeedParser, RecordMapper,
Deduplicator, Loader, PipelineRunner) whose implementation is not part of
the source tree; those components are modelled from the spec below.

JavaScript numbers are IEEE doubles.  Every finite double is a rational
number, and the JavaScript remainder `x % 2` on a finite `x` is computed
exactly (fmod is exact), so finite doubles are embedded as `ℚ`; the
non-finite values `NaN` and `±Infinity` are separate constructors.
`x % 2` yields `NaN` on non-finite `x`, and `NaN === 0` is false.
`-0` is conflated with `0`, which is harmless here because `-0 === 0`
is true in JavaScript, so both sides of the embedding treat them alike.
-/

/-- A JavaScript number: `NaN`, a signed infinity, or a finite double
(represented by its exact rational value). -/
inductive JSNum where
  | nan : JSNum
  | inf : Bool → JSNum
  | num : ℚ → JSNum
deriving DecidableEq

/-- Truncation toward zero on `ℚ`, as used by the JavaScript `%` operator
(`x % y = x - y * trunc(x / y)` for finite operands). -/
def ratTrunc (q : ℚ) : ℤ :=
  if 0 ≤ q then ⌊q⌋ else ⌈q⌉

/-- The JavaScript expression `num % 2`: exact fmod on finite doubles,
`NaN` on `NaN` and `±Infinity`. -/
def jsMod2 (x : JSNum) : JSNum :=
  match x with
  | .num q => .num (q - 2 * ((ratTrunc (q / 2) : ℤ) : ℚ))
  | _ => .nan

/-- The JavaScript comparison `x === 0`: false on `NaN` and `±Infinity`,
exact equality on finite doubles. -/
def jsEqZero (x : JSNum) : Bool :=
  match x with
  | .num q => decide (q = 0)
  | _ => false

/-- `filterEvenNumbers` from `src/test3.js`:
`return arr.filter(num => num % 2 === 0);`. -/
def filterEvenNumbers (arr : List JSNum) : List JSNum :=
  arr.filter (fun num => jsEqZero (jsMod2 num))

/-- The spec-side notion of an even number: a finite value that is an
integer divisible by 2. -/
def isEvenNumber (x : JSNum) : Bool :=
  match x with
  | .num q => decide (q.den = 1) && decide (2 ∣ q.num)
  | _ => false

/-!
A reference-passing model of the JavaScript call for the frame claim:
arrays live in a heap (a list of arrays), a variable holds an index into
the heap, and `Array.prototype.filter` allocates a fresh array at a fresh
index, leaving every existing array untouched.
-/

/-- Calling `filterEvenNumbers(arr)` where `arr` is the array stored at
heap index `i`: the result array is freshly allocated at the end of the
heap and its index is returned; no existing heap cell is written. -/
def filterEvenNumbersCall (heap : List (List JSNum)) (i : Nat) :
    List (List JSNum) × Nat :=
  (heap ++ [filterEvenNumbers (heap.getD i [])], heap.length)

/-!
The ETL pipeline.  None of its code exists under the repository source
tree (only the README narrative mentions it); every definition below is
therefore modelled from the specification text.
-/

/-- Modelled from the spec: a raw `<item>` of the XML feed as seen by
FeedParser, each field possibly absent (source code for FeedParser is
missing from the repository). -/
structure RawItem where
  title : Option String
  link : Option String
  publishedAt : Option String
  summary : Option String
deriving DecidableEq

/-- Modelled from the spec: a FeedEntry produced by FeedParser — title and
link are required, publishedAt is optional, a missing summary yields the
empty value (source code for FeedParser is missing from the repository). -/
structure FeedEntry where
  title : String
  link : String
  publishedAt : Option String
  summary : String
deriving DecidableEq

/-- Modelled from the spec: FeedParser treatment of one item — an entry
missing a required field (title or link) is skipped; missing optional
fields yield empty values. -/
def toEntry (it : RawItem) : Option FeedEntry :=
  match it.title, it.link with
  | some t, some l => some ⟨t, l, it.publishedAt, it.summary.getD ""⟩
  | _, _ => none

/-- Modelled from the spec: FeedParser over a whole feed — the valid
entries in document order, together with the count of skipped entries
(source code for FeedParser is missing from the repository). -/
def parseEntries (items : List RawItem) : List FeedEntry × Nat :=
  (items.filterMap toEntry, items.countP (fun it => (toEntry it).isNone))

/-- Modelled from the spec: a normalized NewsRecord row as produced by
RecordMapper (the `ingestedAt` column is stamped later, by the Loader). -/
structure NewsRecord where
  dedupKey : String
  title : String
  link : String
  publishedAt : Nat
  summary : String
deriving DecidableEq

/-- Modelled from the spec: normalization for key derivation — trim
whitespace and lower-case the URL. -/
def normalizeKey (s : String) : String := s.trim.toLower

/-- Modelled from the spec: parse `publishedAt` into a canonical timestamp,
defaulting to the fetch time if absent or unparseable. -/
def parseTimestamp (s : Option String) (fetchTime : Nat) : Nat :=
  match s with
  | some str => (str.toNat?).getD fetchTime
  | none => fetchTime

/-- Modelled from the spec: RecordMapper.map — dedupKey derived from the
normalized link, whitespace trimmed, timestamps canonicalized (source code
for RecordMapper is missing from the repository). -/
def mapEntry (fetchTime : Nat) (e : FeedEntry) : NewsRecord :=
  { dedupKey := normalizeKey e.link
    title := e.title.trim
    link := e.link.trim
    publishedAt := parseTimestamp e.publishedAt fetchTime
    summary := e.summary.trim }

/-- Modelled from the spec: intra-batch deduplication, first occurrence
wins; `seen` accumulates the keys already kept. -/
def dedupBatch (seen : List String) : List NewsRecord → List NewsRecord
  | [] => []
  | r :: rs =>
    if r.dedupKey ∈ seen then dedupBatch seen rs
    else r :: dedupBatch (r.dedupKey :: seen) rs

/-- Modelled from the spec: Deduplicator.filterNew — dedup within the
batch first, then drop records whose key already exists in the store
(source code for the Deduplicator is missing from the repository). -/
def filterNew (records : List NewsRecord) (existingKeys : List String) :
    List NewsRecord :=
  (dedupBatch [] records).filter (fun r => decide (r.dedupKey ∉ existingKeys))

/-- Modelled from the spec: one persisted row — a NewsRecord plus the
`ingestedAt` timestamp set at load time. -/
structure StoredRow where
  record : NewsRecord
  ingestedAt : Nat
deriving DecidableEq

/-- The dedup keys currently present in the store. -/
def storeKeys (store : List StoredRow) : List String :=
  store.map (fun row => row.record.dedupKey)

/-- Modelled from the spec: one insert inside the Loader transaction — a
unique-constraint conflict (key already present) is treated as
already-present and skipped, otherwise the row is appended with the load
timestamp; returns the new state and the number of rows inserted (0 or 1). -/
def insertStep (t : Nat) (store : List StoredRow) (r : NewsRecord) :
    List StoredRow × Nat :=
  if r.dedupKey ∈ storeKeys store then (store, 0)
  else (store ++ [⟨r, t⟩], 1)

/-- Modelled from the spec: the body of the Loader transaction — insert
every record of the batch in order, counting actual inserts. -/
def runTx (t : Nat) : List StoredRow → List NewsRecord → List StoredRow × Nat
  | store, [] => (store, 0)
  | store, r :: rs =>
    let step := insertStep t store r
    let rest := runTx t step.1 rs
    (rest.1, step.2 + rest.2)

/-- Modelled from the spec: the Loader error taxonomy entry for a
transaction/connection failure. -/
inductive StoreError where
  | txFailure : StoreError
deriving DecidableEq

/-- Modelled from the spec: Loader.load — all inserts happen in one
transaction; `failAt = some k` with `k < records.length` injects a failure
before the batch completes, which aborts the whole transaction (source
code for the Loader is missing from the repository). -/
def load (t : Nat) (store : List StoredRow) (records : List NewsRecord)
    (failAt : Option Nat) : Except StoreError (List StoredRow × Nat) :=
  match failAt with
  | some k =>
    if k < records.length then Except.error StoreError.txFailure
    else Except.ok (runTx t store records)
  | none => Except.ok (runTx t store records)

/-- Modelled from the spec: the store state visible after a call to
Loader.load — a failed transaction commits nothing (rollback), so the
store is unchanged on error. -/
def storeAfterLoad (t : Nat) (store : List StoredRow)
    (records : List NewsRecord) (failAt : Option Nat) : List StoredRow :=
  match load t store records failAt with
  | Except.ok res => res.1
  | Except.error _ => store

/-- Modelled from the spec: the report of a completed run — entries seen,
new records loaded, entries skipped (malformed or duplicate-within-batch). -/
structure RunReport where
  seen : Nat
  loaded : Nat
  skipped : Nat
deriving DecidableEq

/-- Modelled from the spec: PipelineRunner — Parse → Map → Dedup → Load as
one unit of work over an already-fetched feed; the loader transaction runs
with no injected failure (`load · none`, which is `runTx`, see
`load_none`).  Source code for the PipelineRunner is missing from the
repository. -/
def runPipeline (t : Nat) (store : List StoredRow) (items : List RawItem) :
    List StoredRow × RunReport :=
  let parsed := parseEntries items
  let records := parsed.1.map (mapEntry t)
  let fresh := filterNew records (storeKeys store)
  let result := runTx t store fresh
  (result.1,
    { seen := items.length
      loaded := result.2
      skipped := parsed.2 + (records.length - (dedupBatch [] records).length) })

/-- Store states reachable by the pipeline: the empty store, a completed
pipeline run, or a Loader.load call (possibly a failed transaction). -/
inductive ReachableStore : List StoredRow → Prop where
  | init : ReachableStore []
  | step (t : Nat) (items : List RawItem) {s : List StoredRow} :
      ReachableStore s → ReachableStore (runPipeline t s items).1
  | loadStep (t : Nat) (records : List NewsRecord) (failAt : Option Nat)
      {s : List StoredRow} :
      ReachableStore s → ReachableStore (storeAfterLoad t s records failAt)

/-!
Helper lemmas about the store, the transaction body, and deduplication.
-/

/-- Number of records in a batch carrying a given dedup key. -/
def recCount (k : String) (records : List NewsRecord) : Nat :=
  records.countP (fun r => decide (r.dedupKey = k))

/-- Number of persisted rows carrying a given dedup key. -/
def rowCount (k : String) (store : List StoredRow) : Nat :=
  store.countP (fun row => decide (row.record.dedupKey = k))

/-- Concrete feed items used by the witnesses: five valid entries. -/
def demoValidItems : List RawItem :=
  [⟨some "A", some "http://x/1", none, none⟩,
   ⟨some "B", some "http://x/2", none, none⟩,
   ⟨some "C", some "http://x/3", none, none⟩,
   ⟨some "D", some "http://x/4", none, none⟩,
   ⟨some "E", some "http://x/5", none, none⟩]

/-- A malformed feed item: the required title is missing. -/
def demoBadItem : RawItem := ⟨none, some "http://x/6", none, none⟩

/-- A concrete record for the Loader witnesses. -/
def demoRecordA : NewsRecord := ⟨"k1", "A", "http://x/1", 0, ""⟩

/-- A second record carrying the same dedup key as `demoRecordA`. -/
def demoRecordB : NewsRecord := ⟨"k1", "A again", "http://x/1", 1, ""⟩

theorem ratTrunc_intCast (k : ℤ) : ratTrunc (k : ℚ) = k := by
  unfold ratTrunc
  split <;> simp

theorem even_rat_iff (q : ℚ) :
    (q - 2 * ((ratTrunc (q / 2) : ℤ) : ℚ) = 0) ↔ ∃ k : ℤ, q = 2 * (k : ℚ) := by
  constructor
  · intro h
    exact ⟨ratTrunc (q / 2), by linarith⟩
  · rintro ⟨k, hk⟩
    have hq2 : q / 2 = (k : ℚ) := by rw [hk]; ring
    rw [hq2, ratTrunc_intCast]
    linarith

theorem even_den_num_iff (q : ℚ) :
    (∃ k : ℤ, q = 2 * (k : ℚ)) ↔ (q.den = 1 ∧ 2 ∣ q.num) := by
  constructor
  · rintro ⟨k, hk⟩
    have hq : q = ((2 * k : ℤ) : ℚ) := by push_cast; linarith
    constructor
    · rw [hq]; exact Rat.den_intCast (2 * k)
    · rw [hq, Rat.num_intCast]; exact ⟨k, rfl⟩
  · rintro ⟨hden, m, hm⟩
    refine ⟨m, ?_⟩
    have hq : ((q.num : ℚ)) = q := by
      rw [← Rat.den_eq_one_iff]; exact hden
    rw [← hq, hm]; push_cast; ring

/-- The compiled predicate of the source (`num % 2 === 0`) agrees pointwise
with the spec-side predicate "is an even number". -/
theorem jsEven_eq_isEvenNumber (x : JSNum) :
    jsEqZero (jsMod2 x) = isEvenNumber x := by
  cases x with
  | nan => rfl
  | inf b => rfl
  | num q =>
    simp only [jsMod2, jsEqZero, isEvenNumber]
    by_cases h : q - 2 * ((ratTrunc (q / 2) : ℤ) : ℚ) = 0
    · have := (even_den_num_iff q).mp ((even_rat_iff q).mp h)
      simp [h, this.1, this.2]
    · have hne : ¬ (q.den = 1 ∧ 2 ∣ q.num) := fun hc =>
        h ((even_rat_iff q).mpr ((even_den_num_iff q).mpr hc))
      rcases Decidable.not_and_iff_or_not.mp hne with h1 | h2
      · simp [h, h1]
      · simp [h, h2]

theorem isEvenNumber_num_iff (q : ℚ) :
    isEvenNumber (.num q) = true ↔ ∃ k : ℤ, q = 2 * (k : ℚ) := by
  simp only [isEvenNumber, Bool.and_eq_true, decide_eq_true_eq]
  exact (even_den_num_iff q).symm

/-- C1: `filterEvenNumbers`, applied to any array of numbers, returns
exactly the elements that are even numbers, in their original relative
order: it equals the filter of the input by the spec-side even-number
predicate. -/
theorem filterEvenNumbers_eq_filter_even (arr : List JSNum) :
    filterEvenNumbers arr = arr.filter isEvenNumber := by
  unfold filterEvenNumbers
  congr 1
  funext x
  exact jsEven_eq_isEvenNumber x

/-- C9: `filterEvenNumbers` is idempotent: filtering an already-filtered
array changes nothing. -/
theorem filterEvenNumbers_idempotent (arr : List JSNum) :
    filterEvenNumbers (filterEvenNumbers arr) = filterEvenNumbers arr := by
  unfold filterEvenNumbers
  rw [List.filter_filter]
  simp

/-- C10: an element is in the result iff it is in the input and is an
integer divisible by 2 (so `-4` and `0` are kept), while non-integer
values such as `2.5` and `NaN` are dropped, as the concrete evaluation
shows. -/
theorem filterEvenNumbers_mem_iff :
    (∀ (arr : List JSNum) (x : JSNum),
      x ∈ filterEvenNumbers arr ↔ x ∈ arr ∧ ∃ k : ℤ, x = .num (2 * (k : ℚ)))
    ∧ filterEvenNumbers [.num (-4), .num 0, .num (5 / 2), .nan]
        = [.num (-4), .num 0] := by
  constructor
  · intro arr x
    unfold filterEvenNumbers
    rw [List.mem_filter]
    constructor
    · rintro ⟨hmem, hp⟩
      refine ⟨hmem, ?_⟩
      rw [jsEven_eq_isEvenNumber] at hp
      cases x with
      | nan => simp [isEvenNumber] at hp
      | inf b => simp [isEvenNumber] at hp
      | num q =>
        obtain ⟨k, hk⟩ := (isEvenNumber_num_iff q).mp hp
        exact ⟨k, by rw [hk]⟩
    · rintro ⟨hmem, k, hk⟩
      refine ⟨hmem, ?_⟩
      rw [jsEven_eq_isEvenNumber, hk]
      exact (isEvenNumber_num_iff _).mpr ⟨k, rfl⟩
  · have h1 : jsEqZero (jsMod2 (JSNum.num (-4))) = true := by
      rw [jsEven_eq_isEvenNumber, isEvenNumber_num_iff]
      exact ⟨-2, by norm_num⟩
    have h2 : jsEqZero (jsMod2 (JSNum.num 0)) = true := by
      rw [jsEven_eq_isEvenNumber, isEvenNumber_num_iff]
      exact ⟨0, by norm_num⟩
    have h3 : jsEqZero (jsMod2 (JSNum.num (5 / 2))) = false := by
      rw [jsEven_eq_isEvenNumber, Bool.eq_false_iff]
      intro hc
      obtain ⟨k, hk⟩ := (isEvenNumber_num_iff _).mp hc
      have h5 : (5 : ℚ) = 4 * (k : ℚ) := by
        field_simp at hk
        linarith
      have h6 : (5 : ℤ) = 4 * k := by exact_mod_cast h5
      omega
    have h4 : jsEqZero (jsMod2 JSNum.nan) = false := rfl
    simp [filterEvenNumbers, List.filter, h1, h2, h3, h4]

/-- C8: the call does not mutate its argument: every array already on the
heap (in particular the argument at index `i`) is unchanged after the
call, and the returned array is a fresh reference distinct from `i`. -/
theorem filterEvenNumbersCall_frame (heap : List (List JSNum)) (i : Nat)
    (h : i < heap.length) :
    (∀ j, j < heap.length →
      ((filterEvenNumbersCall heap i).1).getD j [] = heap.getD j [])
    ∧ (filterEvenNumbersCall heap i).2 ≠ i
    ∧ ((filterEvenNumbersCall heap i).1).getD (filterEvenNumbersCall heap i).2 []
        = filterEvenNumbers (heap.getD i []) := by
  refine ⟨?_, ?_, ?_⟩
  · intro j hj
    simp only [filterEvenNumbersCall, List.getD]
    rw [List.get?_append hj]
  · simp only [filterEvenNumbersCall]
    omega
  · simp only [filterEvenNumbersCall, List.getD]
    rw [List.get?_append_right (le_refl _)]
    simp

/-- Witness for C8 at a concrete heap. -/
theorem filterEvenNumbersCall_frame_witness :
    (∀ j, j < ([[JSNum.num 1, JSNum.num 2]] : List (List JSNum)).length →
      ((filterEvenNumbersCall [[JSNum.num 1, JSNum.num 2]] 0).1).getD j []
        = ([[JSNum.num 1, JSNum.num 2]] : List (List JSNum)).getD j [])
    ∧ (filterEvenNumbersCall [[JSNum.num 1, JSNum.num 2]] 0).2 ≠ 0
    ∧ ((filterEvenNumbersCall [[JSNum.num 1, JSNum.num 2]] 0).1).getD
          (filterEvenNumbersCall [[JSNum.num 1, JSNum.num 2]] 0).2 []
        = filterEvenNumbers (([[JSNum.num 1, JSNum.num 2]] : List (List JSNum)).getD 0 []) :=
  filterEvenNumbersCall_frame [[JSNum.num 1, JSNum.num 2]] 0 (by decide)

/-- A load with no injected failure commits the transaction body. -/
theorem load_none (t : Nat) (store : List StoredRow)
    (records : List NewsRecord) :
    load t store records none = Except.ok (runTx t store records) := rfl

theorem storeKeys_append_row (store : List StoredRow) (row : StoredRow) :
    storeKeys (store ++ [row]) = storeKeys store ++ [row.record.dedupKey] := by
  simp [storeKeys]

theorem rowCount_append_row (k : String) (store : List StoredRow)
    (row : StoredRow) :
    rowCount k (store ++ [row])
      = rowCount k store + (if row.record.dedupKey = k then 1 else 0) := by
  simp [rowCount, List.countP_append, List.countP_cons]

theorem rowCount_eq_zero_of_notMem (k : String) (store : List StoredRow)
    (h : k ∉ storeKeys store) : rowCount k store = 0 := by
  rw [rowCount, List.countP_eq_zero]
  intro row hrow
  simp only [decide_eq_true_eq]
  intro hk
  apply h
  rw [← hk]
  exact List.mem_map_of_mem _ hrow

theorem runTx_cons (t : Nat) (store : List StoredRow) (r : NewsRecord)
    (rs : List NewsRecord) :
    runTx t store (r :: rs)
      = ((runTx t (insertStep t store r).1 rs).1,
         (insertStep t store r).2 + (runTx t (insertStep t store r).1 rs).2) :=
  rfl

theorem runTx_keys_mem (t : Nat) (rs : List NewsRecord) :
    ∀ (store : List StoredRow) (k : String),
      k ∈ storeKeys (runTx t store rs).1
        ↔ k ∈ storeKeys store ∨ k ∈ rs.map NewsRecord.dedupKey := by
  induction rs with
  | nil => intro store k; simp [runTx]
  | cons r rs ih =>
    intro store k
    by_cases hr : r.dedupKey ∈ storeKeys store
    · have hstep : (runTx t store (r :: rs)).1 = (runTx t store rs).1 := by
        rw [runTx_cons]
        simp only [insertStep, if_pos hr]
      rw [hstep, ih store k]
      simp only [List.map_cons, List.mem_cons]
      constructor
      · rintro (h | h)
        · exact Or.inl h
        · exact Or.inr (Or.inr h)
      · rintro (h | h | h)
        · exact Or.inl h
        · exact Or.inl (by rw [h]; exact hr)
        · exact Or.inr h
    · have hstep : (runTx t store (r :: rs)).1
          = (runTx t (store ++ [({ record := r, ingestedAt := t } : StoredRow)]) rs).1 := by
        rw [runTx_cons]
        simp only [insertStep, if_neg hr]
      rw [hstep,
        ih (store ++ [({ record := r, ingestedAt := t } : StoredRow)]) k,
        storeKeys_append_row]
      simp only [List.mem_append, List.mem_singleton, List.map_cons,
        List.mem_cons, List.not_mem_nil, or_false]
      tauto

theorem runTx_fst_append (t : Nat) (rs : List NewsRecord) :
    ∀ store : List StoredRow, ∃ added, (runTx t store rs).1 = store ++ added := by
  induction rs with
  | nil => intro store; exact ⟨[], by simp [runTx]⟩
  | cons r rs ih =>
    intro store
    by_cases hr : r.dedupKey ∈ storeKeys store
    · have hstep : (runTx t store (r :: rs)).1 = (runTx t store rs).1 := by
        rw [runTx_cons]
        simp only [insertStep, if_pos hr]
      rw [hstep]
      exact ih store
    · have hstep : (runTx t store (r :: rs)).1
          = (runTx t (store ++ [({ record := r, ingestedAt := t } : StoredRow)]) rs).1 := by
        rw [runTx_cons]
        simp only [insertStep, if_neg hr]
      rw [hstep]
      obtain ⟨a, ha⟩ := ih (store ++ [({ record := r, ingestedAt := t } : StoredRow)])
      exact ⟨({ record := r, ingestedAt := t } : StoredRow) :: a, by rw [ha, List.append_assoc]; rfl⟩

theorem runTx_keys_nodup (t : Nat) (rs : List NewsRecord) :
    ∀ store : List StoredRow, (storeKeys store).Nodup →
      (storeKeys (runTx t store rs).1).Nodup := by
  induction rs with
  | nil => intro store h; simpa [runTx] using h
  | cons r rs ih =>
    intro store h
    by_cases hr : r.dedupKey ∈ storeKeys store
    · have hstep : (runTx t store (r :: rs)).1 = (runTx t store rs).1 := by
        rw [runTx_cons]
        simp only [insertStep, if_pos hr]
      rw [hstep]
      exact ih store h
    · have hstep : (runTx t store (r :: rs)).1
          = (runTx t (store ++ [({ record := r, ingestedAt := t } : StoredRow)]) rs).1 := by
        rw [runTx_cons]
        simp only [insertStep, if_neg hr]
      rw [hstep]
      apply ih
      rw [storeKeys_append_row, List.nodup_append]
      refine ⟨h, List.nodup_singleton _, ?_⟩
      intro a ha hmem
      rw [List.mem_singleton] at hmem
      exact hr (hmem ▸ ha)

theorem runTx_rowCount (t : Nat) (rs : List NewsRecord) :
    ∀ (store : List StoredRow) (k : String),
      rowCount k (runTx t store rs).1
        = rowCount k store
          + (if k ∉ storeKeys store ∧ k ∈ rs.map NewsRecord.dedupKey then 1 else 0) := by
  induction rs with
  | nil => intro store k; simp [runTx]
  | cons r rs ih =>
    intro store k
    by_cases hr : r.dedupKey ∈ storeKeys store
    · have hstep : (runTx t store (r :: rs)).1 = (runTx t store rs).1 := by
        rw [runTx_cons]
        simp only [insertStep, if_pos hr]
      rw [hstep, ih store k]
      by_cases hks : k ∈ storeKeys store
      · simp [hks]
      · have hkr : k ≠ r.dedupKey := fun hkk => hks (hkk ▸ hr)
        simp [hks, hkr]
    · have hstep : (runTx t store (r :: rs)).1
          = (runTx t (store ++ [({ record := r, ingestedAt := t } : StoredRow)]) rs).1 := by
        rw [runTx_cons]
        simp only [insertStep, if_neg hr]
      rw [hstep, ih (store ++ [({ record := r, ingestedAt := t } : StoredRow)]) k,
        rowCount_append_row, storeKeys_append_row]
      by_cases hkk : k = r.dedupKey
      · subst hkk
        simp [hr, List.mem_append]
      · have h1 : ¬ r.dedupKey = k := fun hh => hkk hh.symm
        by_cases hks : k ∈ storeKeys store
        · simp [hks, hkk, h1, List.mem_append]
        · simp [hks, hkk, h1, List.mem_append]

theorem dedupBatch_keys_mem (rs : List NewsRecord) :
    ∀ (seen : List String) (k : String),
      k ∈ (dedupBatch seen rs).map NewsRecord.dedupKey
        ↔ k ∈ rs.map NewsRecord.dedupKey ∧ k ∉ seen := by
  induction rs with
  | nil => intro seen k; simp [dedupBatch]
  | cons r rs ih =>
    intro seen k
    by_cases hr : r.dedupKey ∈ seen
    · rw [show dedupBatch seen (r :: rs) = dedupBatch seen rs by
        simp only [dedupBatch, if_pos hr]]
      rw [ih seen k]
      simp only [List.map_cons, List.mem_cons]
      constructor
      · rintro ⟨h1, h2⟩
        exact ⟨Or.inr h1, h2⟩
      · rintro ⟨h1 | h1, h2⟩
        · exact absurd (h1 ▸ hr) h2
        · exact ⟨h1, h2⟩
    · rw [show dedupBatch seen (r :: rs) = r :: dedupBatch (r.dedupKey :: seen) rs by
        simp only [dedupBatch, if_neg hr]]
      simp only [List.map_cons, List.mem_cons]
      rw [ih (r.dedupKey :: seen) k]
      simp only [List.mem_cons]
      constructor
      · rintro (h1 | ⟨h1, h2⟩)
        · exact ⟨Or.inl h1, h1 ▸ hr⟩
        · exact ⟨Or.inr h1, fun hc => h2 (Or.inr hc)⟩
      · rintro ⟨h1 | h1, h2⟩
        · exact Or.inl h1
        · by_cases hkk : k = r.dedupKey
          · exact Or.inl hkk
          · exact Or.inr ⟨h1, fun hc => (hc.elim hkk h2)⟩

theorem dedupBatch_recCount (rs : List NewsRecord) :
    ∀ (seen : List String) (k : String),
      recCount k (dedupBatch seen rs)
        = if k ∈ rs.map NewsRecord.dedupKey ∧ k ∉ seen then 1 else 0 := by
  induction rs with
  | nil => intro seen k; simp [dedupBatch, recCount]
  | cons r rs ih =>
    intro seen k
    by_cases hr : r.dedupKey ∈ seen
    · rw [show dedupBatch seen (r :: rs) = dedupBatch seen rs by
        simp only [dedupBatch, if_pos hr]]
      rw [ih seen k]
      by_cases hkk : k = r.dedupKey
      · subst hkk
        simp [hr]
      · simp [hkk, fun hh => hkk (id (Eq.symm hh) : k = r.dedupKey)]
    · rw [show dedupBatch seen (r :: rs) = r :: dedupBatch (r.dedupKey :: seen) rs by
        simp only [dedupBatch, if_neg hr]]
      rw [show recCount k (r :: dedupBatch (r.dedupKey :: seen) rs)
          = (if r.dedupKey = k then 1 else 0) + recCount k (dedupBatch (r.dedupKey :: seen) rs) by
        simp [recCount, List.countP_cons]; omega]
      rw [ih (r.dedupKey :: seen) k]
      by_cases hkk : k = r.dedupKey
      · subst hkk
        simp [hr]
      · have h1 : ¬ r.dedupKey = k := fun hh => hkk hh.symm
        simp [h1, hkk]

theorem dedupBatch_find (rs : List NewsRecord) :
    ∀ (seen : List String) (k : String), k ∉ seen →
      (dedupBatch seen rs).find? (fun r => decide (r.dedupKey = k))
        = rs.find? (fun r => decide (r.dedupKey = k)) := by
  induction rs with
  | nil => intro seen k _; simp [dedupBatch]
  | cons r rs ih =>
    intro seen k hk
    by_cases hr : r.dedupKey ∈ seen
    · rw [show dedupBatch seen (r :: rs) = dedupBatch seen rs by
        simp only [dedupBatch, if_pos hr]]
      have hne : ¬ (r.dedupKey = k) := fun hh => hk (hh ▸ hr)
      rw [ih seen k hk, List.find?_cons_of_neg _ (by simpa using hne)]
    · rw [show dedupBatch seen (r :: rs) = r :: dedupBatch (r.dedupKey :: seen) rs by
        simp only [dedupBatch, if_neg hr]]
      by_cases hkk : r.dedupKey = k
      · rw [List.find?_cons_of_pos _ (by simpa using hkk),
          List.find?_cons_of_pos _ (by simpa using hkk)]
      · rw [List.find?_cons_of_neg _ (by simpa using hkk),
          List.find?_cons_of_neg _ (by simpa using hkk)]
        exact ih (r.dedupKey :: seen) k (by
          intro hc
          rcases List.mem_cons.mp hc with h1 | h1
          · exact hkk h1.symm
          · exact hk h1)

theorem find_filter_of_imp (l : List NewsRecord) (p q : NewsRecord → Bool)
    (h : ∀ r, p r = true → q r = true) :
    (l.filter q).find? p = l.find? p := by
  induction l with
  | nil => simp
  | cons a l ih =>
    by_cases hq : q a = true
    · rw [List.filter_cons_of_pos hq]
      by_cases hp : p a = true
      · rw [List.find?_cons_of_pos _ hp, List.find?_cons_of_pos _ hp]
      · rw [List.find?_cons_of_neg _ (by simpa using hp),
          List.find?_cons_of_neg _ (by simpa using hp)]
        exact ih
    · have hp : ¬ p a = true := fun hc => hq (h a hc)
      rw [List.filter_cons_of_neg (by simpa using hq),
        List.find?_cons_of_neg _ (by simpa using hp)]
      exact ih

theorem mapEntry_keys (t : Nat) (entries : List FeedEntry) :
    (entries.map (mapEntry t)).map NewsRecord.dedupKey
      = entries.map (fun e => normalizeKey e.link) := by
  rw [List.map_map]
  rfl

theorem runPipeline_def (t : Nat) (store : List StoredRow) (items : List RawItem) :
    runPipeline t store items
      = ((runTx t store
            (filterNew ((parseEntries items).1.map (mapEntry t)) (storeKeys store))).1,
         { seen := items.length
           loaded := (runTx t store
             (filterNew ((parseEntries items).1.map (mapEntry t)) (storeKeys store))).2
           skipped := (parseEntries items).2
             + (((parseEntries items).1.map (mapEntry t)).length
                - (dedupBatch [] ((parseEntries items).1.map (mapEntry t))).length) }) :=
  rfl

/-- C2: running the pipeline twice on an unchanged feed is idempotent: the
first run puts every parsed entry's dedup key into the store, and the
second run loads zero new rows and leaves the store exactly as the first
run left it. -/
theorem pipeline_idempotent (t1 t2 : Nat) (store : List StoredRow)
    (items : List RawItem) :
    (∀ e ∈ (parseEntries items).1,
        normalizeKey e.link ∈ storeKeys (runPipeline t1 store items).1)
    ∧ (runPipeline t2 (runPipeline t1 store items).1 items).2.loaded = 0
    ∧ (runPipeline t2 (runPipeline t1 store items).1 items).1
        = (runPipeline t1 store items).1 := by
  have hkey : ∀ e ∈ (parseEntries items).1,
      normalizeKey e.link ∈ storeKeys (runPipeline t1 store items).1 := by
    intro e he
    show normalizeKey e.link ∈ storeKeys
      (runTx t1 store
        (filterNew ((parseEntries items).1.map (mapEntry t1)) (storeKeys store))).1
    rw [runTx_keys_mem]
    by_cases hst : normalizeKey e.link ∈ storeKeys store
    · exact Or.inl hst
    · right
      unfold filterNew
      have hk1 : normalizeKey e.link
          ∈ ((parseEntries items).1.map (mapEntry t1)).map NewsRecord.dedupKey := by
        rw [mapEntry_keys]
        exact List.mem_map_of_mem _ he
      have hk2 : normalizeKey e.link
          ∈ (dedupBatch [] ((parseEntries items).1.map (mapEntry t1))).map
              NewsRecord.dedupKey :=
        (dedupBatch_keys_mem _ [] _).mpr ⟨hk1, by simp⟩
      obtain ⟨r, hrmem, hrkey⟩ := List.mem_map.mp hk2
      apply List.mem_map.mpr
      refine ⟨r, ?_, hrkey⟩
      apply List.mem_filter.mpr
      refine ⟨hrmem, ?_⟩
      simp only [decide_eq_true_eq]
      rw [hrkey]
      exact hst
  have hfresh2 : filterNew ((parseEntries items).1.map (mapEntry t2))
      (storeKeys (runPipeline t1 store items).1) = [] := by
    unfold filterNew
    rw [List.filter_eq_nil]
    intro r hr
    simp only [decide_eq_true_eq, not_not]
    have h1 := (dedupBatch_keys_mem _ [] r.dedupKey).mp (List.mem_map_of_mem _ hr)
    rw [mapEntry_keys] at h1
    obtain ⟨e, he, hek⟩ := List.mem_map.mp h1.1
    rw [← hek]
    exact hkey e he
  refine ⟨hkey, ?_, ?_⟩
  · show (runTx t2 (runPipeline t1 store items).1
        (filterNew ((parseEntries items).1.map (mapEntry t2))
          (storeKeys (runPipeline t1 store items).1))).2 = 0
    rw [hfresh2]
    rfl
  · show (runTx t2 (runPipeline t1 store items).1
        (filterNew ((parseEntries items).1.map (mapEntry t2))
          (storeKeys (runPipeline t1 store items).1))).1
      = (runPipeline t1 store items).1
    rw [hfresh2]
    rfl

/-- Witness for C2 on a concrete five-entry feed and empty store. -/
theorem pipeline_idempotent_witness :
    (∀ e ∈ (parseEntries demoValidItems).1,
        normalizeKey e.link ∈ storeKeys (runPipeline 0 [] demoValidItems).1)
    ∧ (runPipeline 1 (runPipeline 0 [] demoValidItems).1 demoValidItems).2.loaded = 0
    ∧ (runPipeline 1 (runPipeline 0 [] demoValidItems).1 demoValidItems).1
        = (runPipeline 0 [] demoValidItems).1 :=
  pipeline_idempotent 0 1 [] demoValidItems

/-- C3: Loader.load is atomic: a transaction that fails partway (failure
injected at position `k` inside the batch) reports the error and commits
nothing — the store is unchanged on error, so it contains none of the
batch records that were absent before. -/
theorem load_atomic_on_failure (t : Nat) (store : List StoredRow)
    (records : List NewsRecord) (k : Nat) (h : k < records.length) :
    load t store records (some k) = Except.error StoreError.txFailure
    ∧ storeAfterLoad t store records (some k) = store
    ∧ ∀ r ∈ records, r.dedupKey ∉ storeKeys store →
        r.dedupKey ∉ storeKeys (storeAfterLoad t store records (some k)) := by
  have h1 : load t store records (some k) = Except.error StoreError.txFailure := by
    simp [load, h]
  have h2 : storeAfterLoad t store records (some k) = store := by
    simp [storeAfterLoad, h1]
  refine ⟨h1, h2, ?_⟩
  intro r _ hr
  rw [h2]
  exact hr

/-- Witness for C3: a one-record batch with a failure injected at its
first insert leaves the empty store empty. -/
theorem load_atomic_on_failure_witness :
    load 0 [] [demoRecordA] (some 0) = Except.error StoreError.txFailure
    ∧ storeAfterLoad 0 [] [demoRecordA] (some 0) = []
    ∧ ∀ r ∈ [demoRecordA], r.dedupKey ∉ storeKeys ([] : List StoredRow) →
        r.dedupKey ∉ storeKeys (storeAfterLoad 0 [] [demoRecordA] (some 0)) :=
  load_atomic_on_failure 0 [] [demoRecordA] 0 (by decide)

/-- C4: RecordMapper.map is deterministic: mapping the same entry in any
two runs (any two fetch times) yields the same dedupKey; the map is a pure
function of its inputs. -/
theorem mapEntry_dedupKey_deterministic (t1 t2 : Nat) (e : FeedEntry) :
    (mapEntry t1 e).dedupKey = (mapEntry t2 e).dedupKey := rfl

/-- C5: for a batch holding two or more records with the same derived
dedup key (a key not yet in the store), Deduplicator.filterNew keeps
exactly one record with that key — the first occurrence — and after the
load transaction exactly one row with that key is in the store. -/
theorem filterNew_intra_batch_dedup (t : Nat) (store : List StoredRow)
    (records : List NewsRecord) (k : String)
    (hdup : 2 ≤ recCount k records) (hk : k ∉ storeKeys store) :
    recCount k (filterNew records (storeKeys store)) = 1
    ∧ (filterNew records (storeKeys store)).find? (fun r => decide (r.dedupKey = k))
        = records.find? (fun r => decide (r.dedupKey = k))
    ∧ rowCount k (runTx t store (filterNew records (storeKeys store))).1 = 1 := by
  have hmem : k ∈ records.map NewsRecord.dedupKey := by
    have hpos : 0 < records.countP (fun r => decide (r.dedupKey = k)) := by
      unfold recCount at hdup
      omega
    obtain ⟨r, hrmem, hp⟩ := List.countP_pos.mp hpos
    simp only [decide_eq_true_eq] at hp
    exact List.mem_map.mpr ⟨r, hrmem, hp⟩
  have hc1 : recCount k (filterNew records (storeKeys store)) = 1 := by
    unfold filterNew recCount
    rw [List.countP_filter]
    have hcong : ∀ r ∈ dedupBatch [] records,
        ((decide (r.dedupKey = k) && decide (r.dedupKey ∉ storeKeys store)) = true
          ↔ decide (r.dedupKey = k) = true) := by
      intro r _
      by_cases hr : r.dedupKey = k
      · simp [hr, hk]
      · simp [hr]
    rw [List.countP_congr hcong]
    have hdc := dedupBatch_recCount records [] k
    unfold recCount at hdc
    rw [hdc]
    simp [hmem]
  have hc2 : (filterNew records (storeKeys store)).find?
        (fun r => decide (r.dedupKey = k))
      = records.find? (fun r => decide (r.dedupKey = k)) := by
    unfold filterNew
    rw [find_filter_of_imp (dedupBatch [] records) _ _ (fun r hp => by
      simp only [decide_eq_true_eq] at hp ⊢
      rw [hp]
      exact hk)]
    exact dedupBatch_find records [] k (by simp)
  have hfreshmem : k ∈ (filterNew records (storeKeys store)).map
      NewsRecord.dedupKey := by
    have hpos : 0 < (filterNew records (storeKeys store)).countP
        (fun r => decide (r.dedupKey = k)) := by
      unfold recCount at hc1
      omega
    obtain ⟨r, hrmem, hp⟩ := List.countP_pos.mp hpos
    simp only [decide_eq_true_eq] at hp
    exact List.mem_map.mpr ⟨r, hrmem, hp⟩
  have hc3 : rowCount k (runTx t store (filterNew records (storeKeys store))).1
      = 1 := by
    rw [runTx_rowCount, rowCount_eq_zero_of_notMem k store hk]
    simp [hk, hfreshmem]
  exact ⟨hc1, hc2, hc3⟩

/-- Witness for C5: a two-record batch sharing the key "k1" against the
empty store. -/
theorem filterNew_intra_batch_dedup_witness :
    recCount "k1" (filterNew [demoRecordA, demoRecordB] (storeKeys [])) = 1
    ∧ (filterNew [demoRecordA, demoRecordB] (storeKeys [])).find?
        (fun r => decide (r.dedupKey = "k1"))
        = [demoRecordA, demoRecordB].find? (fun r => decide (r.dedupKey = "k1"))
    ∧ rowCount "k1"
        (runTx 0 [] (filterNew [demoRecordA, demoRecordB] (storeKeys []))).1 = 1 :=
  filterNew_intra_batch_dedup 0 [] [demoRecordA, demoRecordB] "k1"
    (by decide) (by decide)

/-- C6: FeedParser isolates malformed entries: a feed with an entry
missing a required field, inserted anywhere, yields the same store and the
same loaded count as the feed without it, with the seen and skipped counts
each one higher — the run completes instead of failing. -/
theorem malformed_entry_isolated (t : Nat) (store : List StoredRow)
    (pre post : List RawItem) (bad : RawItem) (hbad : toEntry bad = none) :
    (runPipeline t store (pre ++ bad :: post)).1
        = (runPipeline t store (pre ++ post)).1
    ∧ (runPipeline t store (pre ++ bad :: post)).2.loaded
        = (runPipeline t store (pre ++ post)).2.loaded
    ∧ (runPipeline t store (pre ++ bad :: post)).2.seen
        = (runPipeline t store (pre ++ post)).2.seen + 1
    ∧ (runPipeline t store (pre ++ bad :: post)).2.skipped
        = (runPipeline t store (pre ++ post)).2.skipped + 1 := by
  have hentries : (parseEntries (pre ++ bad :: post)).1
      = (parseEntries (pre ++ post)).1 := by
    simp [parseEntries, List.filterMap_append, hbad]
  have hskip : (parseEntries (pre ++ bad :: post)).2
      = (parseEntries (pre ++ post)).2 + 1 := by
    simp only [parseEntries, List.countP_append, List.countP_cons, hbad,
      Option.isNone_none, if_true]
    omega
  have hlen : (pre ++ bad :: post).length = (pre ++ post).length + 1 := by
    simp only [List.length_append, List.length_cons]
    omega
  refine ⟨?_, ?_, ?_, ?_⟩
  · show (runTx t store (filterNew ((parseEntries (pre ++ bad :: post)).1.map
        (mapEntry t)) (storeKeys store))).1
      = (runTx t store (filterNew ((parseEntries (pre ++ post)).1.map
        (mapEntry t)) (storeKeys store))).1
    rw [hentries]
  · show (runTx t store (filterNew ((parseEntries (pre ++ bad :: post)).1.map
        (mapEntry t)) (storeKeys store))).2
      = (runTx t store (filterNew ((parseEntries (pre ++ post)).1.map
        (mapEntry t)) (storeKeys store))).2
    rw [hentries]
  · show (pre ++ bad :: post).length = (pre ++ post).length + 1
    exact hlen
  · show (parseEntries (pre ++ bad :: post)).2
        + (((parseEntries (pre ++ bad :: post)).1.map (mapEntry t)).length
          - (dedupBatch [] ((parseEntries (pre ++ bad :: post)).1.map
              (mapEntry t))).length)
      = (parseEntries (pre ++ post)).2
        + (((parseEntries (pre ++ post)).1.map (mapEntry t)).length
          - (dedupBatch [] ((parseEntries (pre ++ post)).1.map
              (mapEntry t))).length) + 1
    rw [hentries, hskip]
    omega

/-- Witness for C6: five valid entries plus one entry missing its title,
against the empty store, at fetch time 0. -/
theorem malformed_entry_isolated_witness :
    (runPipeline 0 [] (demoValidItems ++ demoBadItem :: [])).1
        = (runPipeline 0 [] (demoValidItems ++ [])).1
    ∧ (runPipeline 0 [] (demoValidItems ++ demoBadItem :: [])).2.loaded
        = (runPipeline 0 [] (demoValidItems ++ [])).2.loaded
    ∧ (runPipeline 0 [] (demoValidItems ++ demoBadItem :: [])).2.seen
        = (runPipeline 0 [] (demoValidItems ++ [])).2.seen + 1
    ∧ (runPipeline 0 [] (demoValidItems ++ demoBadItem :: [])).2.skipped
        = (runPipeline 0 [] (demoValidItems ++ [])).2.skipped + 1 :=
  malformed_entry_isolated 0 [] demoValidItems [] demoBadItem rfl

/-- C7: the store invariant: every reachable store state has pairwise
distinct dedup keys, and both a pipeline run and a Loader.load call only
append rows — existing rows are never mutated or deleted. -/
theorem store_unique_append_only :
    (∀ s, ReachableStore s → (storeKeys s).Nodup)
    ∧ (∀ (t : Nat) (s : List StoredRow) (items : List RawItem),
        ∃ added, (runPipeline t s items).1 = s ++ added)
    ∧ (∀ (t : Nat) (s : List StoredRow) (records : List NewsRecord)
        (failAt : Option Nat),
        ∃ added, storeAfterLoad t s records failAt = s ++ added) := by
  have happend : ∀ (t : Nat) (s : List StoredRow) (records : List NewsRecord)
      (failAt : Option Nat),
      ∃ added, storeAfterLoad t s records failAt = s ++ added := by
    intro t s records failAt
    cases failAt with
    | none =>
      have h := runTx_fst_append t records s
      simpa [storeAfterLoad, load] using h
    | some k =>
      by_cases hk : k < records.length
      · exact ⟨[], by simp [storeAfterLoad, load, hk]⟩
      · have h := runTx_fst_append t records s
        simpa [storeAfterLoad, load, hk] using h
  have hpipe : ∀ (t : Nat) (s : List StoredRow) (items : List RawItem),
      ∃ added, (runPipeline t s items).1 = s ++ added := by
    intro t s items
    exact runTx_fst_append t _ s
  refine ⟨?_, hpipe, happend⟩
  intro s hs
  induction hs with
  | init => simp [storeKeys]
  | step t items hs ih => exact runTx_keys_nodup t _ _ ih
  | loadStep t records failAt hs ih =>
    cases failAt with
    | none => exact runTx_keys_nodup t records _ ih
    | some k =>
      by_cases hk : k < records.length
      · have h2 : ∀ sp : List StoredRow, storeAfterLoad t sp records (some k) = sp := by
          intro sp
          simp [storeAfterLoad, load, hk]
        rw [h2]
        exact ih
      · have h2 : ∀ sp : List StoredRow,
            storeAfterLoad t sp records (some k) = (runTx t sp records).1 := by
          intro sp
          simp [storeAfterLoad, load, hk]
        rw [h2]
        exact runTx_keys_nodup t records _ ih

/-- Witness for C7: the store reached by one pipeline run on a concrete
feed from the empty store has pairwise distinct keys. -/
theorem store_unique_append_only_witness :
    (storeKeys ((runPipeline 0 [] demoValidItems).1)).Nodup :=
  store_unique_append_only.1 _
    (ReachableStore.step 0 demoValidItems ReachableStore.init)
